import Mathlib

/-!
Verification of the AVL tree module of the DSA-Lib repository
(`src/avltree.c`, header `include/avltree.h`, shared status types in
`include/common.h`).

The C code is shallowly embedded: `NULL` node pointers become the `AVLNode.nil`
constructor, heap nodes become `AVLNode.node data left right height`, the byte
copy of an element (`memcpy` of `dataSize` bytes) becomes a value copy, and a
`malloc` outcome is threaded as an explicit `allocOk : Bool`.  A C execution
that dereferences a NULL pointer (which can happen inside the rotation helpers)
is represented by `Option.none`; every function that can reach such a
dereference returns an `Option`.
-/

set_option linter.unusedVariables false

/-- Node of the AVL tree: C struct `AVLNode` with `data`, `left`, `right`,
`height`.  `nil` is the NULL pointer. -/
inductive AVLNode (α : Type) where
  | nil : AVLNode α
  | node (data : α) (left : AVLNode α) (right : AVLNode α) (height : Int) : AVLNode α
deriving DecidableEq, Repr

/-- C struct `InsertStatus` from `common.h`. -/
structure InsertStatus where
  isInserted : Bool := false
  isDuplicate : Bool := false
  isAllocFailed : Bool := false
deriving DecidableEq, Repr

/-- C struct `DeleteStatus` from `common.h`. -/
structure DeleteStatus where
  isDeleted : Bool := false
  isKeyNotFound : Bool := false
deriving DecidableEq, Repr

/-- C enum `STATUS` from `common.h` (only the constructors the AVL module
uses are relevant, but all are kept). -/
inductive STATUS where
  | STATUS_OK
  | STATUS_ERR_ALLOC
  | STATUS_ERR_INVALID_ARGUMENT
  | STATUS_ERR_DUPLICATE_KEY
  | STATUS_ERR_KEY_NOT_FOUND
  | STATUS_ERR_UNDERFLOW
  | STATUS_ERR_OVERFLOW
  | STATUS_ERR_EMPTY
  | STATUS_ERR_FULL
  | STATUS_ERR_UNKNOWN
deriving DecidableEq, Repr

/-- C struct `AVLTree`: root pointer, element size, comparator. -/
structure AVLTree (α : Type) where
  root : AVLNode α
  dataSize : Nat
  cmp : α → α → Int

/-- C enum `TraversalOrder` (internal to `avltree.c`). -/
inductive TraversalOrder where
  | TRAVERSAL_INORDER
  | TRAVERSAL_PREORDER
  | TRAVERSAL_POSTORDER
deriving DecidableEq, Repr

/-- `_AVLTree_getHeight`: height of a node, `-1` for NULL. -/
def AVLTree_getHeight {α : Type} : AVLNode α → Int
  | .nil => -1
  | .node _ _ _ h => h

/-- `_AVLTree_updateHeight`: recompute the cached height of a node from the
cached heights of its children (no-op on NULL). -/
def AVLTree_updateHeight {α : Type} : AVLNode α → AVLNode α
  | .nil => .nil
  | .node d l r _ => .node d l r (1 + max (AVLTree_getHeight l) (AVLTree_getHeight r))

/-- `_AVLTree_getBalanceFactor`: left cached height minus right cached height,
`0` for NULL. -/
def AVLTree_getBalanceFactor {α : Type} : AVLNode α → Int
  | .nil => 0
  | .node _ l r _ => AVLTree_getHeight l - AVLTree_getHeight r

/-- `_AVLTree_getNewNode`: allocate a node holding a copy of `element`.
`element = none` models a NULL element pointer, `allocOk = false` models a
failing `malloc`; in both cases the C function returns NULL (`none`). -/
def AVLTree_getNewNode {α : Type} (dataSize : Nat) (allocOk : Bool) :
    Option α → Option (AVLNode α)
  | none => none
  | some e => if allocOk then some (.node e .nil .nil 0) else none

/-- `_AVLTree_rightRotate`.  The C code dereferences `root` and `root->left`;
if either is NULL the program crashes, which is the `none` result. -/
def AVLTree_rightRotate {α : Type} : AVLNode α → Option (AVLNode α)
  | .node d (.node dl ll lr hl) r h =>
      let root2 := AVLTree_updateHeight (.node d lr r h)
      some (AVLTree_updateHeight (.node dl ll root2 hl))
  | _ => none

/-- `_AVLTree_leftRotate`.  The C code dereferences `root` and `root->right`;
if either is NULL the program crashes, which is the `none` result. -/
def AVLTree_leftRotate {α : Type} : AVLNode α → Option (AVLNode α)
  | .node d l (.node dr rl rr hr) h =>
      let root2 := AVLTree_updateHeight (.node d l rl h)
      some (AVLTree_updateHeight (.node dr root2 rr hr))
  | _ => none

/-- C condition `child && cmp(data, child->data) < 0`. -/
def childKeyLt {α : Type} (cmp : α → α → Int) (data : α) : AVLNode α → Bool
  | .nil => false
  | .node dc _ _ _ => decide (cmp data dc < 0)

/-- C condition `child && cmp(data, child->data) > 0`. -/
def childKeyGt {α : Type} (cmp : α → α → Int) (data : α) : AVLNode α → Bool
  | .nil => false
  | .node dc _ _ _ => decide (0 < cmp data dc)

/-- Lines 232-265 of `_AVLTree_insertNode`: the code on the unwind after the
recursive call returned — update the height, compute the balance factor and
resolve the LL / RR / LR / RL cases, using the inserted key for
disambiguation.  `none` propagates a NULL dereference inside a rotation. -/
def AVLTree_insertUnwind {α : Type} (cmp : α → α → Int) (data : α) :
    AVLNode α → Option (AVLNode α)
  | .nil => some .nil
  | .node d l r h0 =>
    let h1 := 1 + max (AVLTree_getHeight l) (AVLTree_getHeight r)
    let bf := AVLTree_getHeight l - AVLTree_getHeight r
    if decide (1 < bf) && childKeyLt cmp data l then
      AVLTree_rightRotate (.node d l r h1)
    else if decide (bf < -1) && childKeyGt cmp data r then
      AVLTree_leftRotate (.node d l r h1)
    else if decide (1 < bf) && childKeyGt cmp data l then
      match AVLTree_leftRotate l with
      | none => none
      | some l2 => AVLTree_rightRotate (.node d l2 r h1)
    else if decide (bf < -1) && childKeyLt cmp data r then
      match AVLTree_rightRotate r with
      | none => none
      | some r2 => AVLTree_leftRotate (.node d l r2 h1)
    else
      some (.node d l r h1)

/-- `_AVLTree_insertNode`: recursive BST insertion followed by the rebalancing
unwind.  The status struct is threaded exactly as the C code sets it. -/
def AVLTree_insertNode {α : Type} (cmp : α → α → Int) (allocOk : Bool) (dataSize : Nat) :
    AVLNode α → α → InsertStatus → Option (AVLNode α × InsertStatus)
  | .nil, data, st =>
      match AVLTree_getNewNode dataSize allocOk (some data) with
      | some n => some (n, { st with isInserted := true })
      | none => some (.nil, { st with isAllocFailed := true })
  | .node d l r h, data, st =>
      if cmp data d < 0 then
        match AVLTree_insertNode cmp allocOk dataSize l data st with
        | none => none
        | some (l2, st2) =>
          match AVLTree_insertUnwind cmp data (.node d l2 r h) with
          | none => none
          | some t2 => some (t2, st2)
      else if 0 < cmp data d then
        match AVLTree_insertNode cmp allocOk dataSize r data st with
        | none => none
        | some (r2, st2) =>
          match AVLTree_insertUnwind cmp data (.node d l r2 h) with
          | none => none
          | some t2 => some (t2, st2)
      else
        some (.node d l r h, { st with isDuplicate := true })

/-- `AVLTree_insert`: the public wrapper.  A `none` tree or element is a NULL
argument.  The outer `Option` is `none` only when the call crashes. -/
def AVLTree_insert {α : Type} (avl : Option (AVLTree α)) (element : Option α)
    (allocOk : Bool) : Option (Option (AVLTree α) × STATUS) :=
  match avl, element with
  | none, _ => some (none, .STATUS_ERR_INVALID_ARGUMENT)
  | some t, none => some (some t, .STATUS_ERR_INVALID_ARGUMENT)
  | some t, some x =>
    match AVLTree_insertNode t.cmp allocOk t.dataSize t.root x {} with
    | none => none
    | some (r2, st) =>
      let t2 : AVLTree α := { t with root := r2 }
      if st.isInserted then some (some t2, .STATUS_OK)
      else if st.isAllocFailed then some (some t2, .STATUS_ERR_ALLOC)
      else if st.isDuplicate then some (some t2, .STATUS_ERR_DUPLICATE_KEY)
      else some (some t2, .STATUS_ERR_UNKNOWN)

/-- NULL test on a node pointer. -/
def AVLNode.isNil {α : Type} : AVLNode α → Bool
  | .nil => true
  | .node _ _ _ _ => false

/-- `_AVLTree_getMin`: leftmost node of a subtree, NULL for NULL. -/
def AVLTree_getMin {α : Type} : AVLNode α → AVLNode α
  | .nil => .nil
  | .node d .nil r h => .node d .nil r h
  | .node _ (.node dl ll lr hl) _ _ => AVLTree_getMin (.node dl ll lr hl)

/-- Lines 342-368 of `_AVLTree_deleteNode`: the code after the BST deletion
step — return NULL trees unchanged, otherwise update the height and resolve
the four rebalancing cases from the children's balance factors.  The last
case reproduces the source exactly: it right-rotates `root->left` (not
`root->right`) before left-rotating the root. -/
def AVLTree_deleteUnwind {α : Type} : AVLNode α → Option (AVLNode α)
  | .nil => some .nil
  | .node d l r h0 =>
    let h1 := 1 + max (AVLTree_getHeight l) (AVLTree_getHeight r)
    let bf := AVLTree_getHeight l - AVLTree_getHeight r
    if decide (1 < bf) && decide (0 ≤ AVLTree_getBalanceFactor l) then
      AVLTree_rightRotate (.node d l r h1)
    else if decide (1 < bf) && decide (AVLTree_getBalanceFactor l < 0) then
      match AVLTree_leftRotate l with
      | none => none
      | some l2 => AVLTree_rightRotate (.node d l2 r h1)
    else if decide (bf < -1) && decide (AVLTree_getBalanceFactor r ≤ 0) then
      AVLTree_leftRotate (.node d l r h1)
    else if decide (bf < -1) && decide (0 < AVLTree_getBalanceFactor r) then
      match AVLTree_rightRotate l with
      | none => none
      | some l2 => AVLTree_leftRotate (.node d l2 r h1)
    else
      some (.node d l r h1)

/-- `_AVLTree_deleteNode`: recursive BST deletion followed by the rebalancing
unwind `AVLTree_deleteUnwind`. -/
def AVLTree_deleteNode {α : Type} (cmp : α → α → Int) (dataSize : Nat) :
    AVLNode α → α → DeleteStatus → Option (AVLNode α × DeleteStatus)
  | .nil, _, st => some (.nil, { st with isKeyNotFound := true })
  | .node d l r h, key, st =>
    if cmp key d < 0 then
      match AVLTree_deleteNode cmp dataSize l key st with
      | none => none
      | some (l2, st2) =>
        match AVLTree_deleteUnwind (.node d l2 r h) with
        | none => none
        | some t2 => some (t2, st2)
    else if 0 < cmp key d then
      match AVLTree_deleteNode cmp dataSize r key st with
      | none => none
      | some (r2, st2) =>
        match AVLTree_deleteUnwind (.node d l r2 h) with
        | none => none
        | some t2 => some (t2, st2)
    else
      if l.isNil || r.isNil then
        match AVLTree_deleteUnwind (if l.isNil then r else l) with
        | none => none
        | some t2 => some (t2, { st with isDeleted := true })
      else
        match AVLTree_getMin r with
        | .nil => some (.node d l r h, st)
        | .node ms _ _ _ =>
          match AVLTree_deleteNode cmp dataSize r ms st with
          | none => none
          | some (r2, st2) =>
            match AVLTree_deleteUnwind (.node ms l r2 h) with
            | none => none
            | some t2 => some (t2, { st2 with isDeleted := true })

/-- `AVLTree_delete`: the public wrapper. -/
def AVLTree_delete {α : Type} (avl : Option (AVLTree α)) (key : Option α) :
    Option (Option (AVLTree α) × STATUS) :=
  match avl, key with
  | none, _ => some (none, .STATUS_ERR_INVALID_ARGUMENT)
  | some t, none => some (some t, .STATUS_ERR_INVALID_ARGUMENT)
  | some t, some k =>
    match AVLTree_deleteNode t.cmp t.dataSize t.root k {} with
    | none => none
    | some (r2, st) =>
      let t2 : AVLTree α := { t with root := r2 }
      if st.isDeleted then some (some t2, .STATUS_OK)
      else if st.isKeyNotFound then some (some t2, .STATUS_ERR_KEY_NOT_FOUND)
      else some (some t2, .STATUS_ERR_UNKNOWN)

/-- `_AVLTree_searchNode`. -/
def AVLTree_searchNode {α : Type} (cmp : α → α → Int) :
    AVLNode α → α → AVLNode α
  | .nil, _ => .nil
  | .node d l r h, key =>
    if cmp key d = 0 then .node d l r h
    else if cmp key d < 0 then AVLTree_searchNode cmp l key
    else AVLTree_searchNode cmp r key

/-- `AVLTree_search`: returns the stored element (the C code returns a pointer
to it) or `none`. -/
def AVLTree_search {α : Type} (avl : Option (AVLTree α)) (key : Option α) :
    Option α :=
  match avl, key with
  | some t, some k =>
    match AVLTree_searchNode t.cmp t.root k with
    | .nil => none
    | .node d _ _ _ => some d
  | _, _ => none

/-- `_AVLTree_forEachNode`: the sequence of elements handed to the callback,
for a given traversal order. -/
def AVLTree_forEachNode {α : Type} (order : TraversalOrder) : AVLNode α → List α
  | .nil => []
  | .node d l r _ =>
    (if order = .TRAVERSAL_PREORDER then [d] else []) ++
    AVLTree_forEachNode order l ++
    (if order = .TRAVERSAL_INORDER then [d] else []) ++
    AVLTree_forEachNode order r ++
    (if order = .TRAVERSAL_POSTORDER then [d] else [])

/-- `AVLTree_traverseInorder`: status together with the callback sequence;
`callbackOk = false` models a NULL callback pointer. -/
def AVLTree_traverseInorder {α : Type} (avl : Option (AVLTree α))
    (callbackOk : Bool) : STATUS × List α :=
  match avl, callbackOk with
  | some t, true => (.STATUS_OK, AVLTree_forEachNode .TRAVERSAL_INORDER t.root)
  | _, _ => (.STATUS_ERR_INVALID_ARGUMENT, [])

/-- `AVLTree_init`: NULL comparator or zero element size yields NULL. -/
def AVLTree_init {α : Type} (dataSize : Nat) (cmp : Option (α → α → Int)) :
    Option (AVLTree α) :=
  match cmp with
  | none => none
  | some c => if dataSize = 0 then none else some ⟨.nil, dataSize, c⟩

/-! ## Specification-side definitions -/

/-- Keys of a subtree in left-to-right (in-order) sequence. -/
def inorderKeys {α : Type} : AVLNode α → List α
  | .nil => []
  | .node d l r _ => inorderKeys l ++ d :: inorderKeys r

/-- True height of a subtree (`-1` for an empty subtree), independent of the
cached `height` fields. -/
def realHeight {α : Type} : AVLNode α → Int
  | .nil => -1
  | .node _ l r _ => 1 + max (realHeight l) (realHeight r)

/-- Every cached `height` field equals one plus the maximum of the children's
heights (spec section 3 invariant). -/
def heightCorrect {α : Type} : AVLNode α → Bool
  | .nil => true
  | .node _ l r h =>
    decide (h = 1 + max (AVLTree_getHeight l) (AVLTree_getHeight r)) &&
    heightCorrect l && heightCorrect r

/-- The AVL balance invariant over true heights: at every node the heights of
the two subtrees differ by at most 1. -/
def balancedAll {α : Type} : AVLNode α → Bool
  | .nil => true
  | .node _ l r _ =>
    decide ((realHeight l - realHeight r).natAbs ≤ 1) && balancedAll l && balancedAll r

/-- Run a sequence of `AVLTree_insert` calls (all with a live element pointer
and succeeding allocations), collecting the returned statuses. -/
def insertSeq {α : Type} (t : AVLTree α) : List α → Option (AVLTree α × List STATUS)
  | [] => some (t, [])
  | x :: xs =>
    match AVLTree_insert (some t) (some x) true with
    | some (some t2, s) =>
      match insertSeq t2 xs with
      | some (t3, ss) => some (t3, s :: ss)
      | none => none
    | _ => none

/-- Run a sequence of `AVLTree_delete` calls, collecting the statuses. -/
def deleteSeq {α : Type} (t : AVLTree α) : List α → Option (AVLTree α × List STATUS)
  | [] => some (t, [])
  | x :: xs =>
    match AVLTree_delete (some t) (some x) with
    | some (some t2, s) =>
      match deleteSeq t2 xs with
      | some (t3, ss) => some (t3, s :: ss)
      | none => none
    | _ => none

/-- The integer comparator used by the repository's AVL test
(`compare_int` in `test/avltree-test.c`), in sign-normalised form. -/
def intCmp (a b : Int) : Int :=
  if a < b then -1 else if a = b then 0 else 1

/-- A comparator implements a total order that agrees with the ambient
`LinearOrder` (spec section 6: negative below, zero on equality). -/
structure CmpLaw {α : Type} [LinearOrder α] (cmp : α → α → Int) : Prop where
  lt_iff : ∀ a b, cmp a b < 0 ↔ a < b
  eq_iff : ∀ a b, cmp a b = 0 ↔ a = b

/-! ## Concrete traces exercising the RL deletion branch

The RL case of the deletion unwind (source lines 363-366) rotates
`root->left` where every other description in the module — the spec, the
comments `L1 -> RL` and the symmetric insertion code — requires
`root->right`.  The traces below drive the public API into that branch. -/

/-- The tree built by inserting 10, 5, 20, 15 into a fresh tree. -/
def c9tree : AVLNode Int :=
  .node 10 (.node 5 .nil .nil 0) (.node 20 (.node 15 .nil .nil 0) .nil 1) 2

/-- Insertion order producing a 15-node AVL tree whose root has balance
factor −1 with a right child of balance factor +1. -/
def c1keys : List Int := [50, 20, 80, 10, 30, 65, 90, 5, 58, 70, 85, 95, 55, 60, 75]

/-- The tree built by inserting `c1keys` into a fresh tree. -/
def c1pre : AVLNode Int :=
  .node 50
    (.node 20 (.node 10 (.node 5 .nil .nil 0) .nil 1) (.node 30 .nil .nil 0) 2)
    (.node 80
      (.node 65
        (.node 58 (.node 55 .nil .nil 0) (.node 60 .nil .nil 0) 1)
        (.node 70 .nil (.node 75 .nil .nil 0) 1) 2)
      (.node 90 (.node 85 .nil .nil 0) (.node 95 .nil .nil 0) 1) 3) 4

/-- What `AVLTree_delete` leaves behind after deleting 5 from `c1pre`:
node 10 keeps balance factor −2. -/
def c1post : AVLNode Int :=
  .node 80
    (.node 50
      (.node 10 .nil (.node 20 .nil (.node 30 .nil .nil 0) 1) 2)
      (.node 65
        (.node 58 (.node 55 .nil .nil 0) (.node 60 .nil .nil 0) 1)
        (.node 70 .nil (.node 75 .nil .nil 0) 1) 2) 3)
    (.node 90 (.node 85 .nil .nil 0) (.node 95 .nil .nil 0) 1) 4

/-- Left subtree of the root of `c1pre` after 5 has been removed below it. -/
def c2l : AVLNode Int := .node 20 (.node 10 .nil .nil 0) (.node 30 .nil .nil 0) 1

/-- Right subtree of the root of `c1pre` (balance factor +1). -/
def c2r : AVLNode Int :=
  .node 80
    (.node 65
      (.node 58 (.node 55 .nil .nil 0) (.node 60 .nil .nil 0) 1)
      (.node 70 .nil (.node 75 .nil .nil 0) 1) 2)
    (.node 90 (.node 85 .nil .nil 0) (.node 95 .nil .nil 0) 1) 3

/-- The root of `c1pre` as the deletion unwind sees it after the recursive
call removed 5 from its left subtree. -/
def c2in : AVLNode Int := .node 50 c2l c2r 4

/-- What the deletion unwind actually produces on `c2in`. -/
def c2out : AVLNode Int :=
  .node 80
    (.node 50
      (.node 10 .nil (.node 20 .nil (.node 30 .nil .nil 0) 1) 2)
      (.node 65
        (.node 58 (.node 55 .nil .nil 0) (.node 60 .nil .nil 0) 1)
        (.node 70 .nil (.node 75 .nil .nil 0) 1) 2) 3)
    (.node 90 (.node 85 .nil .nil 0) (.node 95 .nil .nil 0) 1) 4

/-- The subtree the claimed RL sequence (right-rotate the right child, then
left-rotate the node) would produce on `c2in`. -/
def c2claim : AVLNode Int :=
  .node 65
    (.node 50
      (.node 20 (.node 10 .nil .nil 0) (.node 30 .nil .nil 0) 1)
      (.node 58 (.node 55 .nil .nil 0) (.node 60 .nil .nil 0) 1) 2)
    (.node 80
      (.node 70 .nil (.node 75 .nil .nil 0) 1)
      (.node 90 (.node 85 .nil .nil 0) (.node 95 .nil .nil 0) 1) 2) 3

/-- Claim C1 (refuted by the code): on the tree built by inserting `c1keys`
(15 successful inserts, no allocation failure), deleting key 5 completes and
returns `STATUS_OK`, yet the resulting tree violates the AVL balance
condition: node 10 has an empty left subtree and a right subtree of height 1,
so the heights differ by 2. -/
theorem C1_delete_leaves_unbalanced_tree :
    insertSeq ⟨.nil, 8, intCmp⟩ c1keys =
      some (⟨c1pre, 8, intCmp⟩, List.replicate 15 .STATUS_OK) ∧
    heightCorrect c1pre = true ∧ balancedAll c1pre = true ∧
    AVLTree_delete (some ⟨c1pre, 8, intCmp⟩) (some 5) =
      some (some ⟨c1post, 8, intCmp⟩, .STATUS_OK) ∧
    balancedAll c1post = false := by
  refine ⟨rfl, by decide, by decide, rfl, by decide⟩

/-- Claim C2 (refuted by the code): `c2in` is exactly an RL deletion
configuration (balance factor −2, right child's balance factor +1), but the
unwind right-rotates the LEFT child and produces the unbalanced `c2out`,
not the rebalanced subtree `c2claim` that right-rotating the right child and
left-rotating the node would give. -/
theorem C2_rl_deletion_rotates_wrong_child :
    AVLTree_getBalanceFactor (AVLTree_updateHeight c2in) = -2 ∧
    0 < AVLTree_getBalanceFactor c2r ∧
    AVLTree_deleteUnwind c2in = some c2out ∧
    balancedAll c2out = false ∧
    (AVLTree_rightRotate c2r).bind
      (fun r2 => AVLTree_leftRotate (.node 50 c2l r2 4)) = some c2claim ∧
    balancedAll c2claim = true ∧
    c2out ≠ c2claim := by
  refine ⟨by decide, by decide, by decide, by decide, by decide, by decide, by decide⟩

/-- Claim C8 (refuted by the code): inserting the distinct keys
10, 5, 20, 15 and then deleting them in the order 5, 20, 15, 10 does not
empty the tree — the very first delete dereferences NULL inside
`_AVLTree_rightRotate` (the RL deletion branch applies it to the NULL left
child), so the round trip never completes. -/
theorem C8_round_trip_crashes :
    insertSeq ⟨.nil, 8, intCmp⟩ [10, 5, 20, 15] =
      some (⟨c9tree, 8, intCmp⟩, List.replicate 4 .STATUS_OK) ∧
    (insertSeq ⟨.nil, 8, intCmp⟩ [10, 5, 20, 15]).bind
      (fun p => deleteSeq p.1 [5, 20, 15, 10]) = none := by
  exact ⟨rfl, rfl⟩

/-- Claim C9 (refuted by the code): on the AVL tree built by inserting
10, 5, 20, 15, deleting 5 reaches the RL deletion branch at the root, whose
left child is NULL; the code calls `_AVLTree_rightRotate` on that NULL child,
so the rotation helper's child-access error branch is reached and the whole
delete is the crash value `none`. -/
theorem C9_rotation_applied_to_missing_child :
    heightCorrect c9tree = true ∧ balancedAll c9tree = true ∧
    AVLTree_rightRotate (AVLNode.nil : AVLNode Int) = none ∧
    AVLTree_delete (some ⟨c9tree, 8, intCmp⟩) (some 5) = none := by
  refine ⟨by decide, by decide, rfl, rfl⟩

/-- Claim C10 (refuted by the code): `AVLTree_delete` does not return a status
for every tree handle and key — on the tree built from 10, 5, 20, 15 and
key 5 it crashes (NULL dereference) before reaching any `return`, so none of
`STATUS_OK`, `STATUS_ERR_INVALID_ARGUMENT`, `STATUS_ERR_KEY_NOT_FOUND` is
produced. -/
theorem C10_delete_returns_no_status :
    AVLTree_deleteNode intCmp 8 c9tree 5 {} = none ∧
    AVLTree_delete (some ⟨c9tree, 8, intCmp⟩) (some 5) = none := by
  exact ⟨by decide, rfl⟩

/-! ## Basic lemmas: traversal lists and rotations -/

theorem forEachNode_inorder {α : Type} (t : AVLNode α) :
    AVLTree_forEachNode .TRAVERSAL_INORDER t = inorderKeys t := by
  induction t with
  | nil => rfl
  | node d l r h ihl ihr => simp [AVLTree_forEachNode, inorderKeys, ihl, ihr]

theorem inorderKeys_updateHeight {α : Type} (t : AVLNode α) :
    inorderKeys (AVLTree_updateHeight t) = inorderKeys t := by
  cases t <;> simp [AVLTree_updateHeight, inorderKeys]

theorem rightRotate_inorder {α : Type} {t t2 : AVLNode α}
    (h : AVLTree_rightRotate t = some t2) : inorderKeys t2 = inorderKeys t := by
  match t with
  | .nil => simp [AVLTree_rightRotate] at h
  | .node d .nil r ht => simp [AVLTree_rightRotate] at h
  | .node d (.node dl ll lr hl) r ht =>
    simp only [AVLTree_rightRotate, Option.some.injEq] at h
    subst h
    simp [inorderKeys, AVLTree_updateHeight]

theorem leftRotate_inorder {α : Type} {t t2 : AVLNode α}
    (h : AVLTree_leftRotate t = some t2) : inorderKeys t2 = inorderKeys t := by
  match t with
  | .nil => simp [AVLTree_leftRotate] at h
  | .node d l .nil ht => simp [AVLTree_leftRotate] at h
  | .node d l (.node dr rl rr hr) ht =>
    simp only [AVLTree_leftRotate, Option.some.injEq] at h
    subst h
    simp [inorderKeys, AVLTree_updateHeight]

theorem insertUnwind_inorder {α : Type} {cmp : α → α → Int} {x : α}
    {t t2 : AVLNode α} (h : AVLTree_insertUnwind cmp x t = some t2) :
    inorderKeys t2 = inorderKeys t := by
  match t with
  | .nil =>
    simp only [AVLTree_insertUnwind, Option.some.injEq] at h
    subst h; rfl
  | .node d l r h0 =>
    simp only [AVLTree_insertUnwind] at h
    split at h
    · rw [rightRotate_inorder h]; simp [inorderKeys]
    · split at h
      · rw [leftRotate_inorder h]; simp [inorderKeys]
      · split at h
        · rcases hrot : AVLTree_leftRotate l with _ | l2 <;> rw [hrot] at h
          · exact absurd h (by simp)
          · rw [rightRotate_inorder h]
            simp [inorderKeys, leftRotate_inorder hrot]
        · split at h
          · rcases hrot : AVLTree_rightRotate r with _ | r2 <;> rw [hrot] at h
            · exact absurd h (by simp)
            · rw [leftRotate_inorder h]
              simp [inorderKeys, rightRotate_inorder hrot]
          · simp only [Option.some.injEq] at h
            subst h; simp [inorderKeys]

theorem deleteUnwind_inorder {α : Type} {t t2 : AVLNode α}
    (h : AVLTree_deleteUnwind t = some t2) : inorderKeys t2 = inorderKeys t := by
  match t with
  | .nil =>
    simp only [AVLTree_deleteUnwind, Option.some.injEq] at h
    subst h; rfl
  | .node d l r h0 =>
    simp only [AVLTree_deleteUnwind] at h
    split at h
    · rw [rightRotate_inorder h]; simp [inorderKeys]
    · split at h
      · rcases hrot : AVLTree_leftRotate l with _ | l2 <;> rw [hrot] at h
        · exact absurd h (by simp)
        · rw [rightRotate_inorder h]
          simp [inorderKeys, leftRotate_inorder hrot]
      · split at h
        · rw [leftRotate_inorder h]; simp [inorderKeys]
        · split at h
          · rcases hrot : AVLTree_rightRotate l with _ | l2 <;> rw [hrot] at h
            · exact absurd h (by simp)
            · rw [leftRotate_inorder h]
              simp [inorderKeys, rightRotate_inorder hrot]
          · simp only [Option.some.injEq] at h
            subst h; simp [inorderKeys]

/-! ## Height-cache correctness lemmas -/

theorem heightCorrect_node_iff {α : Type} {d : α} {l r : AVLNode α} {h : Int} :
    heightCorrect (.node d l r h) = true ↔
      h = 1 + max (AVLTree_getHeight l) (AVLTree_getHeight r) ∧
      heightCorrect l = true ∧ heightCorrect r = true := by
  simp [heightCorrect, Bool.and_eq_true, decide_eq_true_iff, and_assoc]

theorem updateHeight_hc {α : Type} {d : α} {l r : AVLNode α} {h : Int}
    (hl : heightCorrect l = true) (hr : heightCorrect r = true) :
    heightCorrect (AVLTree_updateHeight (.node d l r h)) = true := by
  simp [AVLTree_updateHeight, heightCorrect_node_iff, hl, hr]

theorem rightRotate_hc {α : Type} {d : α} {l r : AVLNode α} {h : Int} {t2 : AVLNode α}
    (hl : heightCorrect l = true) (hr : heightCorrect r = true)
    (hrot : AVLTree_rightRotate (.node d l r h) = some t2) :
    heightCorrect t2 = true := by
  match l with
  | .nil => simp [AVLTree_rightRotate] at hrot
  | .node dl ll lr hl2 =>
    simp only [AVLTree_rightRotate, Option.some.injEq] at hrot
    subst hrot
    rw [heightCorrect_node_iff] at hl
    exact updateHeight_hc hl.2.1 (updateHeight_hc hl.2.2 hr)

theorem leftRotate_hc {α : Type} {d : α} {l r : AVLNode α} {h : Int} {t2 : AVLNode α}
    (hl : heightCorrect l = true) (hr : heightCorrect r = true)
    (hrot : AVLTree_leftRotate (.node d l r h) = some t2) :
    heightCorrect t2 = true := by
  match r with
  | .nil => simp [AVLTree_leftRotate] at hrot
  | .node dr rl rr hr2 =>
    simp only [AVLTree_leftRotate, Option.some.injEq] at hrot
    subst hrot
    rw [heightCorrect_node_iff] at hr
    exact updateHeight_hc (updateHeight_hc hl hr.2.1) hr.2.2

theorem insertUnwind_hc {α : Type} {cmp : α → α → Int} {x : α} {d : α}
    {l r : AVLNode α} {h0 : Int} {t2 : AVLNode α}
    (hl : heightCorrect l = true) (hr : heightCorrect r = true)
    (h : AVLTree_insertUnwind cmp x (.node d l r h0) = some t2) :
    heightCorrect t2 = true := by
  simp only [AVLTree_insertUnwind] at h
  split at h
  · exact rightRotate_hc hl hr h
  · split at h
    · exact leftRotate_hc hl hr h
    · split at h
      · rcases hrot : AVLTree_leftRotate l with _ | l2 <;> rw [hrot] at h
        · exact absurd h (by simp)
        · match l, hl, hrot with
          | .node dl ll lr hl2, hl, hrot =>
            rw [heightCorrect_node_iff] at hl
            exact rightRotate_hc (leftRotate_hc hl.2.1 hl.2.2 hrot) hr h
      · split at h
        · rcases hrot : AVLTree_rightRotate r with _ | r2 <;> rw [hrot] at h
          · exact absurd h (by simp)
          · match r, hr, hrot with
            | .node dr rl rr hr2, hr, hrot =>
              rw [heightCorrect_node_iff] at hr
              exact leftRotate_hc hl (rightRotate_hc hr.2.1 hr.2.2 hrot) h
        · simp only [Option.some.injEq] at h
          subst h
          simp [heightCorrect_node_iff, hl, hr]

theorem deleteUnwind_hc {α : Type} {d : α}
    {l r : AVLNode α} {h0 : Int} {t2 : AVLNode α}
    (hl : heightCorrect l = true) (hr : heightCorrect r = true)
    (h : AVLTree_deleteUnwind (.node d l r h0) = some t2) :
    heightCorrect t2 = true := by
  simp only [AVLTree_deleteUnwind] at h
  split at h
  · exact rightRotate_hc hl hr h
  · split at h
    · rcases hrot : AVLTree_leftRotate l with _ | l2 <;> rw [hrot] at h
      · exact absurd h (by simp)
      · match l, hl, hrot with
        | .node dl ll lr hl2, hl, hrot =>
          rw [heightCorrect_node_iff] at hl
          exact rightRotate_hc (leftRotate_hc hl.2.1 hl.2.2 hrot) hr h
    · split at h
      · exact leftRotate_hc hl hr h
      · split at h
        · rcases hrot : AVLTree_rightRotate l with _ | l2 <;> rw [hrot] at h
          · exact absurd h (by simp)
          · match l, hl, hrot with
            | .node dl ll lr hl2, hl, hrot =>
              rw [heightCorrect_node_iff] at hl
              exact leftRotate_hc (rightRotate_hc hl.2.1 hl.2.2 hrot) hr h
        · simp only [Option.some.injEq] at h
          subst h
          simp [heightCorrect_node_iff, hl, hr]

theorem deleteUnwind_hc_full {α : Type} {t t2 : AVLNode α}
    (ht : heightCorrect t = true) (h : AVLTree_deleteUnwind t = some t2) :
    heightCorrect t2 = true := by
  match t with
  | .nil =>
    simp only [AVLTree_deleteUnwind, Option.some.injEq] at h
    rw [← h]; rfl
  | .node d l r h0 =>
    rw [heightCorrect_node_iff] at ht
    exact deleteUnwind_hc ht.2.1 ht.2.2 h

theorem insertNode_hc {α : Type} {cmp : α → α → Int} {allocOk : Bool} {ds : Nat}
    {x : α} : ∀ {t : AVLNode α} {st : InsertStatus} {t2 : AVLNode α} {st2 : InsertStatus},
    heightCorrect t = true →
    AVLTree_insertNode cmp allocOk ds t x st = some (t2, st2) →
    heightCorrect t2 = true := by
  intro t
  induction t with
  | nil =>
    intro st t2 st2 hht hins
    simp only [AVLTree_insertNode, AVLTree_getNewNode] at hins
    cases allocOk <;> simp only [Bool.false_eq_true, if_false, if_true,
      Option.some.injEq, Prod.mk.injEq] at hins
    · rw [← hins.1]; rfl
    · rw [← hins.1]
      simp [heightCorrect, AVLTree_getHeight]
  | node d l r h0 ihl ihr =>
    intro st t2 st2 hht hins
    rw [heightCorrect_node_iff] at hht
    simp only [AVLTree_insertNode] at hins
    split at hins
    · split at hins
      · exact absurd hins (by simp)
      · rename_i l2 st3 hrec
        split at hins
        · exact absurd hins (by simp)
        · rename_i t3 hunw
          simp only [Option.some.injEq, Prod.mk.injEq] at hins
          rw [← hins.1]
          exact insertUnwind_hc (ihl hht.2.1 hrec) hht.2.2 hunw
    · split at hins
      · split at hins
        · exact absurd hins (by simp)
        · rename_i r2 st3 hrec
          split at hins
          · exact absurd hins (by simp)
          · rename_i t3 hunw
            simp only [Option.some.injEq, Prod.mk.injEq] at hins
            rw [← hins.1]
            exact insertUnwind_hc hht.2.1 (ihr hht.2.2 hrec) hunw
      · simp only [Option.some.injEq, Prod.mk.injEq] at hins
        rw [← hins.1]
        rw [heightCorrect_node_iff]
        exact hht

theorem deleteNode_hc {α : Type} {cmp : α → α → Int} {ds : Nat} :
    ∀ {t : AVLNode α} {key : α} {st : DeleteStatus} {t2 : AVLNode α} {st2 : DeleteStatus},
    heightCorrect t = true →
    AVLTree_deleteNode cmp ds t key st = some (t2, st2) →
    heightCorrect t2 = true := by
  intro t
  induction t with
  | nil =>
    intro key st t2 st2 hht hdel
    simp only [AVLTree_deleteNode, Option.some.injEq, Prod.mk.injEq] at hdel
    rw [← hdel.1]
    rfl
  | node d l r h0 ihl ihr =>
    intro key st t2 st2 hht hdel
    rw [heightCorrect_node_iff] at hht
    simp only [AVLTree_deleteNode] at hdel
    split at hdel
    · split at hdel
      · exact absurd hdel (by simp)
      · rename_i l2 st3 hrec
        split at hdel
        · exact absurd hdel (by simp)
        · rename_i t3 hunw
          simp only [Option.some.injEq, Prod.mk.injEq] at hdel
          rw [← hdel.1]
          exact deleteUnwind_hc (ihl hht.2.1 hrec) hht.2.2 hunw
    · split at hdel
      · split at hdel
        · exact absurd hdel (by simp)
        · rename_i r2 st3 hrec
          split at hdel
          · exact absurd hdel (by simp)
          · rename_i t3 hunw
            simp only [Option.some.injEq, Prod.mk.injEq] at hdel
            rw [← hdel.1]
            exact deleteUnwind_hc hht.2.1 (ihr hht.2.2 hrec) hunw
      · split at hdel
        · split at hdel
          · exact absurd hdel (by simp)
          · rename_i t3 hunw
            simp only [Option.some.injEq, Prod.mk.injEq] at hdel
            rw [← hdel.1]
            refine deleteUnwind_hc_full ?_ hunw
            split
            · exact hht.2.2
            · exact hht.2.1
        · split at hdel
          · simp only [Option.some.injEq, Prod.mk.injEq] at hdel
            rw [← hdel.1]
            rw [heightCorrect_node_iff]
            exact hht
          · rename_i ms ml mr mh hmin
            split at hdel
            · exact absurd hdel (by simp)
            · rename_i r2 st3 hrec
              split at hdel
              · exact absurd hdel (by simp)
              · rename_i t3 hunw
                simp only [Option.some.injEq, Prod.mk.injEq] at hdel
                rw [← hdel.1]
                exact deleteUnwind_hc hht.2.1 (ihr hht.2.2 hrec) hunw

/-! ## Wrapper projections and comparator facts -/

theorem insert_wrapper_root {α : Type} {t : AVLTree α} {x : α} {allocOk : Bool}
    {t2 : AVLTree α} {s : STATUS}
    (h : AVLTree_insert (some t) (some x) allocOk = some (some t2, s)) :
    ∃ st, AVLTree_insertNode t.cmp allocOk t.dataSize t.root x {} = some (t2.root, st) := by
  simp only [AVLTree_insert] at h
  split at h
  · exact absurd h (by simp)
  · rename_i r2 st hrec
    refine ⟨st, ?_⟩
    split at h
    · simp only [Option.some.injEq, Prod.mk.injEq] at h
      rw [← h.1]
      exact hrec
    · split at h
      · simp only [Option.some.injEq, Prod.mk.injEq] at h
        rw [← h.1]
        exact hrec
      · split at h
        · simp only [Option.some.injEq, Prod.mk.injEq] at h
          rw [← h.1]
          exact hrec
        · simp only [Option.some.injEq, Prod.mk.injEq] at h
          rw [← h.1]
          exact hrec

theorem delete_wrapper_root {α : Type} {t : AVLTree α} {k : α}
    {t2 : AVLTree α} {s : STATUS}
    (h : AVLTree_delete (some t) (some k) = some (some t2, s)) :
    ∃ st, AVLTree_deleteNode t.cmp t.dataSize t.root k {} = some (t2.root, st) := by
  simp only [AVLTree_delete] at h
  split at h
  · exact absurd h (by simp)
  · rename_i r2 st hrec
    refine ⟨st, ?_⟩
    split at h
    · simp only [Option.some.injEq, Prod.mk.injEq] at h
      rw [← h.1]
      exact hrec
    · split at h
      · simp only [Option.some.injEq, Prod.mk.injEq] at h
        rw [← h.1]
        exact hrec
      · simp only [Option.some.injEq, Prod.mk.injEq] at h
        rw [← h.1]
        exact hrec

theorem CmpLaw.gt_iff {α : Type} [LinearOrder α] {cmp : α → α → Int}
    (hc : CmpLaw cmp) (a b : α) : 0 < cmp a b ↔ b < a := by
  constructor
  · intro h
    rcases lt_trichotomy a b with h1 | h1 | h1
    · have := (hc.lt_iff a b).mpr h1
      omega
    · have := (hc.eq_iff a b).mpr h1
      omega
    · exact h1
  · intro h
    have h1 : ¬ cmp a b < 0 := fun hx => absurd ((hc.lt_iff a b).mp hx) (asymm h)
    have h2 : cmp a b ≠ 0 := fun hx => absurd ((hc.eq_iff a b).mp hx) (ne_of_gt h)
    omega

theorem CmpLaw.not_lt_not_gt_eq {α : Type} [LinearOrder α] {cmp : α → α → Int}
    (hc : CmpLaw cmp) {a b : α} (h1 : ¬ cmp a b < 0) (h2 : ¬ 0 < cmp a b) : a = b := by
  refine (hc.eq_iff a b).mp ?_
  omega

theorem intCmp_law : CmpLaw intCmp := by
  have h : ∀ a b : Int, (intCmp a b < 0 ↔ a < b) ∧ (intCmp a b = 0 ↔ a = b) := by
    intro a b
    unfold intCmp
    split
    · constructor <;> constructor <;> intro _ <;> omega
    · split <;> constructor <;> constructor <;> intro _ <;> omega
  exact ⟨fun a b => (h a b).1, fun a b => (h a b).2⟩

/-- Claim C4: after any public mutating operation that returns to the caller,
every node's cached height field equals one plus the maximum of its
children's cached heights, where an absent subtree reports height −1
(`AVLTree_getHeight nil = -1`) and a newly allocated leaf starts at height 0
(`AVLTree_getNewNode`). -/
theorem C4_height_cache_invariant {α : Type} (cmp : α → α → Int) (ds : Nat)
    (allocOk : Bool) (t u : AVLNode α) (x key : α)
    (hts : heightCorrect t = true) (hus : heightCorrect u = true) :
    (∀ t2 s, AVLTree_insert (some ⟨t, ds, cmp⟩) (some x) allocOk = some (some t2, s) →
      heightCorrect t2.root = true) ∧
    (∀ u2 s, AVLTree_delete (some ⟨u, ds, cmp⟩) (some key) = some (some u2, s) →
      heightCorrect u2.root = true) ∧
    AVLTree_getHeight (AVLNode.nil : AVLNode α) = -1 ∧
    AVLTree_getNewNode ds true (some x) = some (.node x .nil .nil 0) := by
  refine ⟨?_, ?_, rfl, rfl⟩
  · intro t2 s h
    obtain ⟨st, hrec⟩ := insert_wrapper_root h
    exact insertNode_hc hts hrec
  · intro u2 s h
    obtain ⟨st, hrec⟩ := delete_wrapper_root h
    exact deleteNode_hc hus hrec

/-- Witness for C4 at a concrete tree, element and key. -/
theorem C4_height_cache_invariant_witness :
    heightCorrect (AVLNode.node 2 (.node 1 .nil .nil 0) .nil 1) = true ∧
    ((∀ t2 s, AVLTree_insert
        (some ⟨AVLNode.node 2 (.node 1 .nil .nil 0) .nil 1, 8, intCmp⟩) (some 3) true =
        some (some t2, s) → heightCorrect t2.root = true) ∧
     (∀ u2 s, AVLTree_delete
        (some ⟨AVLNode.node 2 (.node 1 .nil .nil 0) .nil 1, 8, intCmp⟩) (some 1) =
        some (some u2, s) → heightCorrect u2.root = true) ∧
     AVLTree_getHeight (AVLNode.nil : AVLNode Int) = -1 ∧
     AVLTree_getNewNode 8 true (some (3 : Int)) = some (.node 3 .nil .nil 0)) :=
  ⟨by decide,
   C4_height_cache_invariant intCmp 8 true
     (AVLNode.node 2 (.node 1 .nil .nil 0) .nil 1)
     (AVLNode.node 2 (.node 1 .nil .nil 0) .nil 1) 3 1 (by decide) (by decide)⟩

/-! ## Balanced trees: no rotation fires -/

theorem getHeight_eq_realHeight {α : Type} {t : AVLNode α}
    (h : heightCorrect t = true) : AVLTree_getHeight t = realHeight t := by
  induction t with
  | nil => rfl
  | node d l r h0 ihl ihr =>
    rw [heightCorrect_node_iff] at h
    show h0 = realHeight (.node d l r h0)
    rw [h.1, ihl h.2.1, ihr h.2.2]
    rfl

theorem balancedAll_node_iff {α : Type} {d : α} {l r : AVLNode α} {h : Int} :
    balancedAll (.node d l r h) = true ↔
      (realHeight l - realHeight r).natAbs ≤ 1 ∧
      balancedAll l = true ∧ balancedAll r = true := by
  simp [balancedAll, Bool.and_eq_true, decide_eq_true_iff, and_assoc]

theorem insertUnwind_of_balanced {α : Type} {cmp : α → α → Int} {x : α}
    {d : α} {l r : AVLNode α} {h0 : Int}
    (hhc : heightCorrect (.node d l r h0) = true)
    (hbal : (realHeight l - realHeight r).natAbs ≤ 1) :
    AVLTree_insertUnwind cmp x (.node d l r h0) = some (.node d l r h0) := by
  rw [heightCorrect_node_iff] at hhc
  have hl := getHeight_eq_realHeight hhc.2.1
  have hr := getHeight_eq_realHeight hhc.2.2
  have h1 : ¬ (1 < AVLTree_getHeight l - AVLTree_getHeight r) := by
    rw [hl, hr]; omega
  have h2 : ¬ (AVLTree_getHeight l - AVLTree_getHeight r < -1) := by
    rw [hl, hr]; omega
  simp only [AVLTree_insertUnwind, decide_eq_true_eq, h1, h2, decide_False,
    Bool.false_and, if_false, Bool.false_eq_true, ← hhc.1]

theorem deleteUnwind_of_balanced {α : Type}
    {d : α} {l r : AVLNode α} {h0 : Int}
    (hhc : heightCorrect (.node d l r h0) = true)
    (hbal : (realHeight l - realHeight r).natAbs ≤ 1) :
    AVLTree_deleteUnwind (.node d l r h0) = some (.node d l r h0) := by
  rw [heightCorrect_node_iff] at hhc
  have hl := getHeight_eq_realHeight hhc.2.1
  have hr := getHeight_eq_realHeight hhc.2.2
  have h1 : ¬ (1 < AVLTree_getHeight l - AVLTree_getHeight r) := by
    rw [hl, hr]; omega
  have h2 : ¬ (AVLTree_getHeight l - AVLTree_getHeight r < -1) := by
    rw [hl, hr]; omega
  simp only [AVLTree_deleteUnwind, decide_eq_true_eq, h1, h2, decide_False,
    Bool.false_and, if_false, Bool.false_eq_true, ← hhc.1]

/-! ## Duplicate insertion leaves the tree untouched -/

theorem pairwise_node_parts {α : Type} [LinearOrder α] {d : α} {l r : AVLNode α}
    {h : Int} (hp : List.Pairwise (· < ·) (inorderKeys (.node d l r h))) :
    List.Pairwise (· < ·) (inorderKeys l) ∧ List.Pairwise (· < ·) (inorderKeys r) ∧
    (∀ a ∈ inorderKeys l, a < d) ∧ (∀ b ∈ inorderKeys r, d < b) := by
  have hp2 : List.Pairwise (· < ·) (inorderKeys l ++ d :: inorderKeys r) := hp
  rw [List.pairwise_append] at hp2
  obtain ⟨pA, pdB, hcross⟩ := hp2
  rw [List.pairwise_cons] at pdB
  refine ⟨pA, pdB.2, ?_, pdB.1⟩
  intro a ha
  exact hcross a ha d (List.mem_cons_self d _)

theorem insertNode_dup {α : Type} [LinearOrder α] {cmp : α → α → Int}
    (hcl : CmpLaw cmp) {allocOk : Bool} {ds : Nat} :
    ∀ {t : AVLNode α} {x : α} {st : InsertStatus},
    heightCorrect t = true → balancedAll t = true →
    List.Pairwise (· < ·) (inorderKeys t) → x ∈ inorderKeys t →
    AVLTree_insertNode cmp allocOk ds t x st =
      some (t, { st with isDuplicate := true }) := by
  intro t
  induction t with
  | nil =>
    intro x st hhc hbal hs hx
    exact absurd hx (by simp [inorderKeys])
  | node d l r h0 ihl ihr =>
    intro x st hhc hbal hs hx
    obtain ⟨pA, pB, hAd, hdB⟩ := pairwise_node_parts hs
    have hhc2 := hhc
    rw [heightCorrect_node_iff] at hhc2
    have hbal2 := hbal
    rw [balancedAll_node_iff] at hbal2
    have hx2 : x ∈ inorderKeys l ∨ x = d ∨ x ∈ inorderKeys r := by
      have : x ∈ inorderKeys l ++ d :: inorderKeys r := hx
      simp only [List.mem_append, List.mem_cons] at this
      tauto
    rcases hx2 with hxl | hxd | hxr
    · have hlt : cmp x d < 0 := (hcl.lt_iff x d).mpr (hAd x hxl)
      simp only [AVLTree_insertNode, if_pos hlt,
        ihl hhc2.2.1 hbal2.2.1 pA hxl,
        insertUnwind_of_balanced hhc hbal2.1]
    · have heq : cmp x d = 0 := (hcl.eq_iff x d).mpr hxd
      have h1 : ¬ cmp x d < 0 := by omega
      have h2 : ¬ 0 < cmp x d := by omega
      simp only [AVLTree_insertNode, if_neg h1, if_neg h2]
    · have hgt : 0 < cmp x d := (hcl.gt_iff x d).mpr (hdB x hxr)
      have h1 : ¬ cmp x d < 0 := by omega
      simp only [AVLTree_insertNode, if_neg h1, if_pos hgt,
        ihr hhc2.2.2 hbal2.2.2 pB hxr,
        insertUnwind_of_balanced hhc hbal2.1]

/-! ## Deleting an absent key leaves the tree untouched -/

theorem deleteNode_absent {α : Type} [LinearOrder α] {cmp : α → α → Int}
    (hcl : CmpLaw cmp) {ds : Nat} :
    ∀ {t : AVLNode α} {key : α} {st : DeleteStatus},
    heightCorrect t = true → balancedAll t = true →
    List.Pairwise (· < ·) (inorderKeys t) → key ∉ inorderKeys t →
    AVLTree_deleteNode cmp ds t key st =
      some (t, { st with isKeyNotFound := true }) := by
  intro t
  induction t with
  | nil =>
    intro key st hhc hbal hs habs
    simp [AVLTree_deleteNode]
  | node d l r h0 ihl ihr =>
    intro key st hhc hbal hs habs
    obtain ⟨pA, pB, hAd, hdB⟩ := pairwise_node_parts hs
    have hhc2 := hhc
    rw [heightCorrect_node_iff] at hhc2
    have hbal2 := hbal
    rw [balancedAll_node_iff] at hbal2
    have hnl : key ∉ inorderKeys l := by
      intro hk
      exact habs (by simp only [inorderKeys, List.mem_append]; exact Or.inl hk)
    have hnr : key ∉ inorderKeys r := by
      intro hk
      refine habs ?_
      simp only [inorderKeys, List.mem_append, List.mem_cons]
      exact Or.inr (Or.inr hk)
    have hnd : key ≠ d := by
      intro he
      refine habs ?_
      simp only [inorderKeys, List.mem_append, List.mem_cons]
      exact Or.inr (Or.inl he)
    rcases lt_trichotomy key d with hkd | hkd | hkd
    · have hlt : cmp key d < 0 := (hcl.lt_iff key d).mpr hkd
      simp only [AVLTree_deleteNode, if_pos hlt,
        ihl hhc2.2.1 hbal2.2.1 pA hnl,
        deleteUnwind_of_balanced hhc hbal2.1]
    · exact absurd hkd hnd
    · have hgt : 0 < cmp key d := (hcl.gt_iff key d).mpr hkd
      have h1 : ¬ cmp key d < 0 := by omega
      simp only [AVLTree_deleteNode, if_neg h1, if_pos hgt,
        ihr hhc2.2.2 hbal2.2.2 pB hnr,
        deleteUnwind_of_balanced hhc hbal2.1]

/-- Claim C6: inserting an element whose key compares equal to a stored key
returns `STATUS_ERR_DUPLICATE_KEY` and leaves the tree handle exactly as it
was — same node structure, same cached heights, same elements, hence the same
traversal order. -/
theorem C6_duplicate_insert_unchanged {α : Type} [LinearOrder α]
    {cmp : α → α → Int} (hcl : CmpLaw cmp) (ds : Nat) (allocOk : Bool)
    (t : AVLNode α) (x : α)
    (hhc : heightCorrect t = true) (hbal : balancedAll t = true)
    (hs : List.Pairwise (· < ·) (inorderKeys t))
    (hmem : ∃ y ∈ inorderKeys t, cmp x y = 0) :
    AVLTree_insert (some ⟨t, ds, cmp⟩) (some x) allocOk =
      some (some ⟨t, ds, cmp⟩, .STATUS_ERR_DUPLICATE_KEY) := by
  obtain ⟨y, hy, hxy⟩ := hmem
  have hx : x ∈ inorderKeys t := by
    rw [(hcl.eq_iff x y).mp hxy]
    exact hy
  simp only [AVLTree_insert, insertNode_dup hcl hhc hbal hs hx]
  rfl

/-- Witness for C6 on a concrete balanced tree holding 1, 2, 3 and the
duplicate element 3. -/
theorem C6_duplicate_insert_unchanged_witness :
    heightCorrect (AVLNode.node 2 (.node 1 .nil .nil 0) (.node 3 .nil .nil 0) 1) = true ∧
    balancedAll (AVLNode.node 2 (.node 1 .nil .nil 0) (.node 3 .nil .nil 0) 1) = true ∧
    List.Pairwise (· < ·)
      (inorderKeys (AVLNode.node 2 (.node 1 .nil .nil 0) (.node 3 .nil .nil 0) 1)) ∧
    (∃ y ∈ inorderKeys (AVLNode.node 2 (.node 1 .nil .nil 0) (.node 3 .nil .nil 0) 1),
      intCmp 3 y = 0) ∧
    AVLTree_insert
      (some ⟨AVLNode.node 2 (.node 1 .nil .nil 0) (.node 3 .nil .nil 0) 1, 8, intCmp⟩)
      (some 3) true =
      some (some ⟨AVLNode.node 2 (.node 1 .nil .nil 0) (.node 3 .nil .nil 0) 1, 8, intCmp⟩,
        .STATUS_ERR_DUPLICATE_KEY) :=
  ⟨by decide, by decide, by decide, by decide,
   C6_duplicate_insert_unchanged intCmp_law 8 true
     (AVLNode.node 2 (.node 1 .nil .nil 0) (.node 3 .nil .nil 0) 1) 3
     (by decide) (by decide) (by decide) (by decide)⟩

/-- Claim C7: deleting a key that compares equal to no stored key returns
`STATUS_ERR_KEY_NOT_FOUND` and leaves the tree handle exactly as it was —
same structure, same cached heights, same elements. -/
theorem C7_delete_absent_unchanged {α : Type} [LinearOrder α]
    {cmp : α → α → Int} (hcl : CmpLaw cmp) (ds : Nat)
    (t : AVLNode α) (key : α)
    (hhc : heightCorrect t = true) (hbal : balancedAll t = true)
    (hs : List.Pairwise (· < ·) (inorderKeys t))
    (habs : ∀ y ∈ inorderKeys t, cmp key y ≠ 0) :
    AVLTree_delete (some ⟨t, ds, cmp⟩) (some key) =
      some (some ⟨t, ds, cmp⟩, .STATUS_ERR_KEY_NOT_FOUND) := by
  have hk : key ∉ inorderKeys t := by
    intro hkmem
    exact habs key hkmem ((hcl.eq_iff key key).mpr rfl)
  simp only [AVLTree_delete, deleteNode_absent hcl hhc hbal hs hk]
  rfl

/-- Witness for C7 on a concrete balanced tree holding 1, 2, 3 and the
absent key 7. -/
theorem C7_delete_absent_unchanged_witness :
    heightCorrect (AVLNode.node 2 (.node 1 .nil .nil 0) (.node 3 .nil .nil 0) 1) = true ∧
    balancedAll (AVLNode.node 2 (.node 1 .nil .nil 0) (.node 3 .nil .nil 0) 1) = true ∧
    List.Pairwise (· < ·)
      (inorderKeys (AVLNode.node 2 (.node 1 .nil .nil 0) (.node 3 .nil .nil 0) 1)) ∧
    (∀ y ∈ inorderKeys (AVLNode.node 2 (.node 1 .nil .nil 0) (.node 3 .nil .nil 0) 1),
      intCmp 7 y ≠ 0) ∧
    AVLTree_delete
      (some ⟨AVLNode.node 2 (.node 1 .nil .nil 0) (.node 3 .nil .nil 0) 1, 8, intCmp⟩)
      (some 7) =
      some (some ⟨AVLNode.node 2 (.node 1 .nil .nil 0) (.node 3 .nil .nil 0) 1, 8, intCmp⟩,
        .STATUS_ERR_KEY_NOT_FOUND) :=
  ⟨by decide, by decide, by decide, by decide,
   C7_delete_absent_unchanged intCmp_law 8
     (AVLNode.node 2 (.node 1 .nil .nil 0) (.node 3 .nil .nil 0) 1) 7
     (by decide) (by decide) (by decide) (by decide)⟩

/-! ## Fresh insertion: the in-order list gets the new key in order -/

theorem orderedInsert_append_left {α : Type} [LinearOrder α] {x d : α}
    (B : List α) (hxd : x ≤ d) : ∀ (A : List α),
    List.orderedInsert (· ≤ ·) x (A ++ d :: B) =
      List.orderedInsert (· ≤ ·) x A ++ d :: B := by
  intro A
  induction A with
  | nil => simp [List.orderedInsert, if_pos hxd]
  | cons a A ih =>
    by_cases hxa : x ≤ a
    · simp [List.orderedInsert, if_pos hxa]
    · simp only [List.cons_append, List.orderedInsert, if_neg hxa]
      rw [List.append_eq, ih]

theorem orderedInsert_append_right {α : Type} [LinearOrder α] {x d : α}
    (B : List α) (hxd : ¬ x ≤ d) : ∀ (A : List α), (∀ a ∈ A, ¬ x ≤ a) →
    List.orderedInsert (· ≤ ·) x (A ++ d :: B) =
      A ++ d :: List.orderedInsert (· ≤ ·) x B := by
  intro A
  induction A with
  | nil =>
    intro _
    simp [List.orderedInsert, if_neg hxd]
  | cons a A ih =>
    intro hA
    have hxa : ¬ x ≤ a := hA a (List.mem_cons_self a A)
    simp only [List.cons_append, List.orderedInsert, if_neg hxa]
    rw [List.append_eq, ih (fun b hb => hA b (List.mem_cons_of_mem a hb))]

theorem pairwise_lt_of_le_nodup {α : Type} [LinearOrder α] {L : List α}
    (hle : List.Pairwise (· ≤ ·) L) (hnd : L.Nodup) :
    List.Pairwise (· < ·) L :=
  (hle.and hnd).imp fun h => lt_of_le_of_ne h.1 h.2

theorem pairwise_lt_orderedInsert {α : Type} [LinearOrder α] {x : α} {A : List α}
    (hs : List.Pairwise (· < ·) A) (hx : x ∉ A) :
    List.Pairwise (· < ·) (List.orderedInsert (· ≤ ·) x A) := by
  have hle : List.Sorted (· ≤ ·) A := hs.imp le_of_lt
  have h1 : List.Sorted (· ≤ ·) (List.orderedInsert (· ≤ ·) x A) :=
    List.Sorted.orderedInsert x A hle
  have hnd : (List.orderedInsert (· ≤ ·) x A).Nodup := by
    refine (List.perm_orderedInsert _ x A).nodup_iff.mpr ?_
    rw [List.nodup_cons]
    exact ⟨hx, hs.imp ne_of_lt⟩
  exact pairwise_lt_of_le_nodup h1 hnd

theorem insertNode_fresh {α : Type} [LinearOrder α] {cmp : α → α → Int}
    (hcl : CmpLaw cmp) {ds : Nat} :
    ∀ {t : AVLNode α} {x : α} {st : InsertStatus} {t2 : AVLNode α} {st2 : InsertStatus},
    List.Pairwise (· < ·) (inorderKeys t) → x ∉ inorderKeys t →
    AVLTree_insertNode cmp true ds t x st = some (t2, st2) →
    inorderKeys t2 = List.orderedInsert (· ≤ ·) x (inorderKeys t) ∧
    st2 = { st with isInserted := true } := by
  intro t
  induction t with
  | nil =>
    intro x st t2 st2 hs hx hins
    simp only [AVLTree_insertNode, AVLTree_getNewNode, if_true,
      Option.some.injEq, Prod.mk.injEq] at hins
    rw [← hins.1, ← hins.2]
    simp [inorderKeys, List.orderedInsert]
  | node d l r h0 ihl ihr =>
    intro x st t2 st2 hs hx hins
    obtain ⟨pA, pB, hAd, hdB⟩ := pairwise_node_parts hs
    have hnl : x ∉ inorderKeys l := by
      intro hk
      exact hx (by simp only [inorderKeys, List.mem_append]; exact Or.inl hk)
    have hnr : x ∉ inorderKeys r := by
      intro hk
      refine hx ?_
      simp only [inorderKeys, List.mem_append, List.mem_cons]
      exact Or.inr (Or.inr hk)
    have hnd : x ≠ d := by
      intro he
      refine hx ?_
      simp only [inorderKeys, List.mem_append, List.mem_cons]
      exact Or.inr (Or.inl he)
    rcases lt_trichotomy x d with hxd | hxd | hxd
    · have hlt : cmp x d < 0 := (hcl.lt_iff x d).mpr hxd
      simp only [AVLTree_insertNode, if_pos hlt] at hins
      split at hins
      · exact absurd hins (by simp)
      · rename_i l2 st3 hrec
        split at hins
        · exact absurd hins (by simp)
        · rename_i t3 hunw
          simp only [Option.some.injEq, Prod.mk.injEq] at hins
          obtain ⟨ih1, ih2⟩ := ihl pA hnl hrec
          refine ⟨?_, by rw [← hins.2, ih2]⟩
          rw [← hins.1, insertUnwind_inorder hunw]
          show inorderKeys l2 ++ d :: inorderKeys r = _
          rw [ih1,
            show inorderKeys (AVLNode.node d l r h0) =
              inorderKeys l ++ d :: inorderKeys r from rfl,
            orderedInsert_append_left (inorderKeys r) (le_of_lt hxd)]
    · exact absurd hxd hnd
    · have hgt : 0 < cmp x d := (hcl.gt_iff x d).mpr hxd
      have h1 : ¬ cmp x d < 0 := by omega
      simp only [AVLTree_insertNode, if_neg h1, if_pos hgt] at hins
      split at hins
      · exact absurd hins (by simp)
      · rename_i r2 st3 hrec
        split at hins
        · exact absurd hins (by simp)
        · rename_i t3 hunw
          simp only [Option.some.injEq, Prod.mk.injEq] at hins
          obtain ⟨ih1, ih2⟩ := ihr pB hnr hrec
          refine ⟨?_, by rw [← hins.2, ih2]⟩
          rw [← hins.1, insertUnwind_inorder hunw]
          show inorderKeys l ++ d :: inorderKeys r2 = _
          rw [ih1,
            show inorderKeys (AVLNode.node d l r h0) =
              inorderKeys l ++ d :: inorderKeys r from rfl,
            orderedInsert_append_right (inorderKeys r) (not_le.mpr hxd)
              (inorderKeys l) (fun a ha => not_le.mpr (lt_trans (hAd a ha) hxd))]

theorem insert_wrapper_inserted {α : Type} {t : AVLTree α} {x : α} {r2 : AVLNode α}
    (h : AVLTree_insertNode t.cmp true t.dataSize t.root x {} =
      some (r2, { isInserted := true, isDuplicate := false, isAllocFailed := false })) :
    AVLTree_insert (some t) (some x) true =
      some (some { t with root := r2 }, .STATUS_OK) := by
  simp only [AVLTree_insert, h]
  rfl

theorem insertSeq_inv {α : Type} [LinearOrder α] {cmp : α → α → Int}
    (hcl : CmpLaw cmp) :
    ∀ (keys : List α) (t tF : AVLTree α) (sts : List STATUS),
    t.cmp = cmp →
    List.Pairwise (· < ·) (inorderKeys t.root) →
    keys.Nodup → (∀ k ∈ keys, k ∉ inorderKeys t.root) →
    insertSeq t keys = some (tF, sts) →
    (∀ s ∈ sts, s = .STATUS_OK) ∧ tF.cmp = cmp ∧
    List.Pairwise (· < ·) (inorderKeys tF.root) ∧
    (inorderKeys tF.root).Perm (inorderKeys t.root ++ keys) := by
  intro keys
  induction keys with
  | nil =>
    intro t tF sts hcmp hs hnd hfr hrun
    simp only [insertSeq, Option.some.injEq, Prod.mk.injEq] at hrun
    obtain ⟨h1, h2⟩ := hrun
    subst h1
    subst h2
    exact ⟨by simp, hcmp, hs, by simp⟩
  | cons x xs ih =>
    intro t tF sts hcmp hs hnd hfr hrun
    have hcl2 : CmpLaw t.cmp := by rw [hcmp]; exact hcl
    have hfrx : x ∉ inorderKeys t.root := hfr x (List.mem_cons_self x xs)
    simp only [insertSeq] at hrun
    split at hrun
    · rename_i t2 s heq
      split at hrun
      · rename_i t3 ss heq2
        simp only [Option.some.injEq, Prod.mk.injEq] at hrun
        obtain ⟨htF, hsts⟩ := hrun
        subst htF
        obtain ⟨st2, hnode⟩ := insert_wrapper_root heq
        obtain ⟨hi1, hi2⟩ := insertNode_fresh hcl2 hs hfrx hnode
        rw [hi2] at hnode
        have heqw := heq.symm.trans (insert_wrapper_inserted hnode)
        simp only [Option.some.injEq, Prod.mk.injEq] at heqw
        obtain ⟨ht2, hsOK⟩ := heqw
        have hc2 : t2.cmp = cmp := by rw [ht2]; exact hcmp
        have hs2 : List.Pairwise (· < ·) (inorderKeys t2.root) := by
          rw [hi1]
          exact pairwise_lt_orderedInsert hs hfrx
        have hndx := List.nodup_cons.mp hnd
        have hfr2 : ∀ k ∈ xs, k ∉ inorderKeys t2.root := by
          intro k hk hmem
          rw [hi1] at hmem
          rcases (List.mem_orderedInsert _).mp hmem with hkx | hkA
          · exact hndx.1 (hkx ▸ hk)
          · exact hfr k (List.mem_cons_of_mem x hk) hkA
        obtain ⟨hOKs, hcF, hsF, hpermF⟩ := ih t2 t3 ss hc2 hs2 hndx.2 hfr2 heq2
        refine ⟨?_, hcF, hsF, ?_⟩
        · intro s2 hs2mem
          rw [← hsts] at hs2mem
          rcases List.mem_cons.mp hs2mem with h1 | h1
          · rw [h1, hsOK]
          · exact hOKs s2 h1
        · refine hpermF.trans ?_
          have step1 : List.Perm (inorderKeys t2.root ++ xs)
              ((x :: inorderKeys t.root) ++ xs) := by
            rw [hi1]
            exact (List.perm_orderedInsert _ x _).append_right xs
          refine step1.trans ?_
          rw [List.cons_append]
          exact List.perm_middle.symm
      · exact absurd hrun (by simp)
    · exact absurd hrun (by simp)

/-- Claim C3: after any sequence of successful `AVLTree_insert` calls with
distinct keys under a lawful total-order comparator, `AVLTree_traverseInorder`
hands the callback exactly the stored elements (one call per element:
the callback sequence is a permutation of the inserted keys) in strictly
ascending comparator order. -/
theorem C3_inorder_traversal_sorted {α : Type} [LinearOrder α]
    {cmp : α → α → Int} (hcl : CmpLaw cmp) (ds : Nat)
    (keys : List α) (hnd : keys.Nodup) (t0 tF : AVLTree α) (sts : List STATUS)
    (hinit : AVLTree_init ds (some cmp) = some t0)
    (hrun : insertSeq t0 keys = some (tF, sts)) :
    (∀ s ∈ sts, s = .STATUS_OK) ∧
    AVLTree_traverseInorder (some tF) true =
      (.STATUS_OK, AVLTree_forEachNode .TRAVERSAL_INORDER tF.root) ∧
    List.Pairwise (fun a b => cmp a b < 0)
      (AVLTree_forEachNode .TRAVERSAL_INORDER tF.root) ∧
    (AVLTree_forEachNode .TRAVERSAL_INORDER tF.root).Perm keys := by
  simp only [AVLTree_init] at hinit
  split at hinit
  · exact absurd hinit (by simp)
  · simp only [Option.some.injEq] at hinit
    obtain ⟨hOK, hcF, hsrt, hperm⟩ :=
      insertSeq_inv hcl keys t0 tF sts (by rw [← hinit])
        (by rw [← hinit]; exact List.Pairwise.nil) hnd
        (by intro k hk; rw [← hinit]; simp [inorderKeys]) hrun
    refine ⟨hOK, rfl, ?_, ?_⟩
    · rw [forEachNode_inorder]
      exact hsrt.imp (fun hab => (hcl.lt_iff _ _).mpr hab)
    · rw [forEachNode_inorder]
      have hroot : inorderKeys t0.root = ([] : List α) := by
        rw [← hinit]
        rfl
      simpa [hroot] using hperm

/-- Witness for C3: inserting 2, 1, 3 into a fresh tree. -/
theorem C3_inorder_traversal_sorted_witness :
    List.Nodup [2, 1, 3] ∧
    AVLTree_init 8 (some intCmp) = some (⟨.nil, 8, intCmp⟩ : AVLTree Int) ∧
    insertSeq (⟨.nil, 8, intCmp⟩ : AVLTree Int) [2, 1, 3] =
      some (⟨.node 2 (.node 1 .nil .nil 0) (.node 3 .nil .nil 0) 1, 8, intCmp⟩,
        [.STATUS_OK, .STATUS_OK, .STATUS_OK]) ∧
    ((∀ s ∈ [STATUS.STATUS_OK, .STATUS_OK, .STATUS_OK], s = .STATUS_OK) ∧
     AVLTree_traverseInorder
       (some (⟨.node 2 (.node 1 .nil .nil 0) (.node 3 .nil .nil 0) 1, 8, intCmp⟩ :
         AVLTree Int)) true =
       (.STATUS_OK, AVLTree_forEachNode .TRAVERSAL_INORDER
         (AVLNode.node 2 (.node 1 .nil .nil 0) (.node 3 .nil .nil 0) 1)) ∧
     List.Pairwise (fun a b => intCmp a b < 0)
       (AVLTree_forEachNode .TRAVERSAL_INORDER
         (AVLNode.node 2 (.node 1 .nil .nil 0) (.node 3 .nil .nil 0) 1)) ∧
     (AVLTree_forEachNode .TRAVERSAL_INORDER
       (AVLNode.node 2 (.node 1 .nil .nil 0) (.node 3 .nil .nil 0) 1 :
         AVLNode Int)).Perm [2, 1, 3]) :=
  by
  refine ⟨by decide, rfl, rfl, ?_⟩
  simpa using C3_inorder_traversal_sorted intCmp_law 8 [2, 1, 3] (by decide)
    ⟨.nil, 8, intCmp⟩
    ⟨.node 2 (.node 1 .nil .nil 0) (.node 3 .nil .nil 0) 1, 8, intCmp⟩
    [.STATUS_OK, .STATUS_OK, .STATUS_OK] rfl rfl

/-! ## Deletion and the in-order key list -/

theorem isNil_iff {α : Type} {t : AVLNode α} : t.isNil = true ↔ t = .nil := by
  cases t <;> simp [AVLNode.isNil]

theorem getMin_head {α : Type} : ∀ {t : AVLNode α}, t ≠ .nil →
    ∃ m ml mr mh rest, AVLTree_getMin t = .node m ml mr mh ∧
      inorderKeys t = m :: rest := by
  intro t
  induction t with
  | nil =>
    intro h
    exact absurd rfl h
  | node d l r h0 ihl ihr =>
    intro _
    cases l with
    | nil => exact ⟨d, .nil, r, h0, inorderKeys r, rfl, rfl⟩
    | node dl ll lr hl =>
      obtain ⟨m, ml, mr, mh, rest, hmin, hlist⟩ := ihl (by simp)
      refine ⟨m, ml, mr, mh, rest ++ d :: inorderKeys r, hmin, ?_⟩
      show inorderKeys (.node dl ll lr hl) ++ d :: inorderKeys r = _
      rw [hlist]
      rfl

theorem deleteNode_inorder {α : Type} [LinearOrder α] {cmp : α → α → Int}
    (hcl : CmpLaw cmp) {ds : Nat} :
    ∀ {t : AVLNode α} {key : α} {st : DeleteStatus} {t2 : AVLNode α} {st2 : DeleteStatus},
    List.Pairwise (· < ·) (inorderKeys t) →
    AVLTree_deleteNode cmp ds t key st = some (t2, st2) →
    inorderKeys t2 = (inorderKeys t).erase key := by
  intro t
  induction t with
  | nil =>
    intro key st t2 st2 hs hdel
    simp only [AVLTree_deleteNode, Option.some.injEq, Prod.mk.injEq] at hdel
    rw [← hdel.1]
    simp [inorderKeys]
  | node d l r h0 ihl ihr =>
    intro key st t2 st2 hs hdel
    obtain ⟨pA, pB, hAd, hdB⟩ := pairwise_node_parts hs
    have htlist : inorderKeys (AVLNode.node d l r h0) =
        inorderKeys l ++ d :: inorderKeys r := rfl
    simp only [AVLTree_deleteNode] at hdel
    split at hdel
    · rename_i hclt
      have hkd : key < d := (hcl.lt_iff key d).mp hclt
      split at hdel
      · exact absurd hdel (by simp)
      · rename_i l2 st3 hrec
        split at hdel
        · exact absurd hdel (by simp)
        · rename_i t3 hunw
          simp only [Option.some.injEq, Prod.mk.injEq] at hdel
          rw [← hdel.1, deleteUnwind_inorder hunw]
          show inorderKeys l2 ++ d :: inorderKeys r = _
          rw [ihl pA hrec, htlist]
          by_cases hkA : key ∈ inorderKeys l
          · rw [List.erase_append_left _ hkA]
          · have hknB : key ∉ d :: inorderKeys r := by
              intro hmem
              rcases List.mem_cons.mp hmem with h1 | h1
              · exact absurd (h1 ▸ hkd) (lt_irrefl d)
              · exact absurd (lt_trans hkd (hdB key h1)) (lt_irrefl key)
            rw [List.erase_append_right _ hkA, List.erase_of_not_mem hkA,
              List.erase_of_not_mem hknB]
    · split at hdel
      · rename_i hnlt hcgt
        have hkd : d < key := (hcl.gt_iff key d).mp hcgt
        split at hdel
        · exact absurd hdel (by simp)
        · rename_i r2 st3 hrec
          split at hdel
          · exact absurd hdel (by simp)
          · rename_i t3 hunw
            simp only [Option.some.injEq, Prod.mk.injEq] at hdel
            rw [← hdel.1, deleteUnwind_inorder hunw]
            show inorderKeys l ++ d :: inorderKeys r2 = _
            rw [ihr pB hrec, htlist]
            have hkA : key ∉ inorderKeys l := by
              intro hmem
              exact absurd (lt_trans (hAd key hmem) hkd) (lt_irrefl key)
            have hdne : ¬ ((d == key) = true) := by
              simp only [beq_iff_eq]
              exact ne_of_lt hkd
            rw [List.erase_append_right _ hkA, List.erase_cons_tail hdne]
      · rename_i hnlt hngt
        have hkd : key = d := hcl.not_lt_not_gt_eq hnlt hngt
        subst hkd
        have hknA : key ∉ inorderKeys l := by
          intro hmem
          exact absurd (hAd key hmem) (lt_irrefl key)
        split at hdel
        · rename_i hnil
          split at hdel
          · exact absurd hdel (by simp)
          · rename_i t3 hunw
            simp only [Option.some.injEq, Prod.mk.injEq] at hdel
            rw [← hdel.1, deleteUnwind_inorder hunw, htlist]
            by_cases hln : l.isNil = true
            · rw [isNil_iff] at hln
              subst hln
              show inorderKeys r = _
              rw [show inorderKeys (AVLNode.nil : AVLNode α) = ([] : List α) from rfl,
                List.nil_append, List.erase_cons_head]
            · have hrn : r.isNil = true := by
                rcases Bool.or_eq_true_iff.mp hnil with h1 | h1
                · exact absurd h1 hln
                · exact h1
              rw [isNil_iff] at hrn
              subst hrn
              rw [if_neg hln]
              show inorderKeys l = _
              rw [show inorderKeys (AVLNode.nil : AVLNode α) = ([] : List α) from rfl,
                List.erase_append_right _ hknA, List.erase_cons_head, List.append_nil]
        · rename_i hnil
          have hrnn : r ≠ .nil := by
            intro he
            refine hnil ?_
            rw [he]
            simp [AVLNode.isNil]
          obtain ⟨m, ml2, mr2, mh2, rest, hmin, hlist⟩ := getMin_head hrnn
          split at hdel
          · rename_i hminnil
            rw [hmin] at hminnil
            exact absurd hminnil (by simp)
          · rename_i ms mml mmr mmh hminnode
            rw [hmin] at hminnode
            injection hminnode with hm1 hm2 hm3 hm4
            subst hm1
            split at hdel
            · exact absurd hdel (by simp)
            · rename_i r2 st3 hrec
              split at hdel
              · exact absurd hdel (by simp)
              · rename_i t3 hunw
                simp only [Option.some.injEq, Prod.mk.injEq] at hdel
                rw [← hdel.1, deleteUnwind_inorder hunw]
                show inorderKeys l ++ m :: inorderKeys r2 = _
                rw [ihr pB hrec, htlist, hlist, List.erase_cons_head,
                  List.erase_append_right _ hknA, List.erase_cons_head]

/-- Claim C5: when `AVLTree_delete` matches a node that has two children, it
overwrites the matched node's payload in place with the element of its
in-order successor (the leftmost node `AVLTree_getMin` of the right subtree),
recursively deletes that successor from the right subtree, and hands the node
(same position, same left subtree, new payload) to the rebalancing unwind;
the resulting key multiset is the old one minus the deleted key. -/
theorem C5_two_child_delete_via_successor {α : Type} [LinearOrder α]
    {cmp : α → α → Int} (hcl : CmpLaw cmp) (ds : Nat) (d : α)
    (l r : AVLNode α) (h0 : Int) (key : α) (st : DeleteStatus)
    (t2 : AVLNode α) (st2 : DeleteStatus)
    (m : α) (mml mmr : AVLNode α) (mmh : Int) (r2 : AVLNode α) (st3 : DeleteStatus)
    (hs : List.Pairwise (· < ·) (inorderKeys (.node d l r h0)))
    (hkey : cmp key d = 0)
    (hl : l ≠ .nil)
    (hmin : AVLTree_getMin r = .node m mml mmr mmh)
    (hrec : AVLTree_deleteNode cmp ds r m st = some (r2, st3))
    (houter : AVLTree_deleteNode cmp ds (.node d l r h0) key st = some (t2, st2)) :
    AVLTree_deleteUnwind (.node m l r2 h0) = some t2 ∧
    st2 = { st3 with isDeleted := true } ∧
    inorderKeys t2 = (inorderKeys (.node d l r h0)).erase key ∧
    ((inorderKeys t2 : List α) : Multiset α) =
      ((inorderKeys (.node d l r h0) : List α) : Multiset α) - {key} := by
  have herase := deleteNode_inorder hcl hs houter
  have hrn : r ≠ .nil := by
    intro he
    rw [he] at hmin
    exact absurd hmin (by simp [AVLTree_getMin])
  have hln : l.isNil = false := by
    cases l with
    | nil => exact absurd rfl hl
    | node a b c e => rfl
  have hrnb : r.isNil = false := by
    cases r with
    | nil => exact absurd rfl hrn
    | node a b c e => rfl
  have h1 : ¬ cmp key d < 0 := by omega
  have h2 : ¬ 0 < cmp key d := by omega
  simp only [AVLTree_deleteNode, if_neg h1, if_neg h2, hln, hrnb,
    Bool.or_self, Bool.false_eq_true, if_false, hmin, hrec] at houter
  split at houter
  · exact absurd houter (by simp)
  · rename_i t3 hunw
    simp only [Option.some.injEq, Prod.mk.injEq] at houter
    obtain ⟨ht3, hst⟩ := houter
    refine ⟨by rw [ht3] at hunw; exact hunw, hst.symm, herase, ?_⟩
    rw [herase, Multiset.sub_singleton, Multiset.coe_erase]

/-- Witness for C5: deleting the root 20 of a tree where 20 has children
10 and 30(, 40); the successor 30 replaces it. -/
theorem C5_two_child_delete_via_successor_witness :
    List.Pairwise (· < ·)
      (inorderKeys (AVLNode.node 20 (.node 10 .nil .nil 0)
        (.node 30 .nil (.node 40 .nil .nil 0) 1) 2)) ∧
    intCmp 20 20 = 0 ∧
    (AVLNode.node 10 .nil .nil 0 : AVLNode Int) ≠ .nil ∧
    AVLTree_getMin (AVLNode.node 30 .nil (.node 40 .nil .nil 0) 1 : AVLNode Int) =
      .node 30 .nil (.node 40 .nil .nil 0) 1 ∧
    AVLTree_deleteNode intCmp 8 (AVLNode.node 30 .nil (.node 40 .nil .nil 0) 1) 30 {} =
      some (.node 40 .nil .nil 0, { isDeleted := true, isKeyNotFound := false }) ∧
    AVLTree_deleteNode intCmp 8
      (AVLNode.node 20 (.node 10 .nil .nil 0) (.node 30 .nil (.node 40 .nil .nil 0) 1) 2)
      20 {} =
      some (.node 30 (.node 10 .nil .nil 0) (.node 40 .nil .nil 0) 1,
        { isDeleted := true, isKeyNotFound := false }) ∧
    (AVLTree_deleteUnwind (.node 30 (.node 10 .nil .nil 0) (.node 40 .nil .nil 0) 2 :
        AVLNode Int) =
      some (.node 30 (.node 10 .nil .nil 0) (.node 40 .nil .nil 0) 1) ∧
     ({ isDeleted := true, isKeyNotFound := false } : DeleteStatus) =
       { ({ isDeleted := true, isKeyNotFound := false } : DeleteStatus) with
         isDeleted := true } ∧
     inorderKeys (AVLNode.node 30 (.node 10 .nil .nil 0) (.node 40 .nil .nil 0) 1 :
        AVLNode Int) =
       (inorderKeys (AVLNode.node 20 (.node 10 .nil .nil 0)
         (.node 30 .nil (.node 40 .nil .nil 0) 1) 2)).erase 20 ∧
     ((inorderKeys (AVLNode.node 30 (.node 10 .nil .nil 0) (.node 40 .nil .nil 0) 1 :
        AVLNode Int) : List Int) : Multiset Int) =
       ((inorderKeys (AVLNode.node 20 (.node 10 .nil .nil 0)
         (.node 30 .nil (.node 40 .nil .nil 0) 1) 2) : List Int) : Multiset Int) -
         {20}) := by
  refine ⟨by decide, by decide, by decide, by decide, by decide, by decide, ?_⟩
  exact C5_two_child_delete_via_successor intCmp_law 8 20
    (.node 10 .nil .nil 0) (.node 30 .nil (.node 40 .nil .nil 0) 1) 2 20 {}
    (.node 30 (.node 10 .nil .nil 0) (.node 40 .nil .nil 0) 1)
    { isDeleted := true, isKeyNotFound := false }
    30 .nil (.node 40 .nil .nil 0) 1 (.node 40 .nil .nil 0)
    { isDeleted := true, isKeyNotFound := false }
    (by decide) (by decide) (by decide) (by decide) (by decide) (by decide)
